/-
Verification of the voice-note processing pipeline core
(`src/whisper_2_0`): segment planner, processing queue,
markdown-to-block converter, rich-text parser, response cleanup,
transcription fallback and the per-item coordinator.

Python text values are modelled as `List Char`; Python numbers are
modelled as `Int` (for millisecond durations) and `ℚ` (for the float
arithmetic of the planner, taken exactly).  Fallible calls return
`Option`.  External effects (provider calls, the file system, the
document store) are supplied as explicit environments, and the
coordinator additionally returns the ordered trace of the calls it
made.
-/
import Mathlib

namespace Whisper

/-! ### Python string primitives -/

/-- The whitespace characters stripped by Python's `str.strip()`. -/
def isWS (c : Char) : Bool :=
  c = ' ' || c = '\t' || c = '\n' || c = '\r' || c = '\x0b' || c = '\x0c'

/-- Python `str.strip()`: drop whitespace from both ends. -/
def pystrip (l : List Char) : List Char :=
  ((l.dropWhile isWS).reverse.dropWhile isWS).reverse

/-- Python `str.split(sep)` for a one-character separator. -/
def pysplit (sep : Char) : List Char → List (List Char)
  | [] => [[]]
  | c :: cs =>
    if c = sep then [] :: pysplit sep cs
    else
      match pysplit sep cs with
      | [] => [[c]]
      | p :: ps => (c :: p) :: ps

/-- Python `str.startswith(p)`. -/
def startsWithL (p l : List Char) : Bool := p.isPrefixOf l

/-- Python `str.endswith(p)`. -/
def endsWithL (p l : List Char) : Bool := p.reverse.isPrefixOf l.reverse

/-! ### SegmentPlanner (`audio_processing.estimate_segment_duration_ms`)

The float arithmetic of the source is modelled exactly over `ℚ`. -/

/-- `target_bitrate_kbps_str.replace("k", "")`: removing every
occurrence of the one-character pattern `"k"` deletes every `'k'`. -/
def pyReplaceK (l : List Char) : List Char := l.filter (fun c => c ≠ 'k')

/-- Python `int(str)` on the plain decimal forms that can reach the
planner (an optional sign followed by digits). -/
def pyInt? (l : List Char) : Option Int :=
  let digitsVal : List Char → Option Int := fun ds =>
    if ds ≠ [] ∧ ds.all Char.isDigit then
      some (ds.foldl (fun acc c => 10 * acc + (c.toNat - '0'.toNat)) 0)
    else none
  match l with
  | '-' :: rest => (digitsVal rest).map (fun n => -n)
  | '+' :: rest => digitsVal rest
  | _ => digitsVal l

/-- `audio_processing.estimate_segment_duration_ms`.  Returns `none`
where the source returns `None`.  The guards mirror Python truthiness:
an empty bitrate string, a zero duration or a zero size ceiling are
falsy. -/
def estimate_segment_duration_ms (audio_duration_ms : Int) (_audio_channels : Int)
    (target_bitrate_kbps_str : List Char) (max_size_bytes : ℚ) : Option Int :=
  if target_bitrate_kbps_str = [] ∨ audio_duration_ms = 0 ∨ max_size_bytes = 0 then
    none
  else
    match pyInt? (pyReplaceK target_bitrate_kbps_str) with
    | none => none
    | some target_bitrate_kbps =>
      if target_bitrate_kbps ≤ 0 then none
      else
        let bytes_per_second_at_target_bitrate : ℚ := (target_bitrate_kbps * 1000 : ℚ) / 8
        let max_duration_seconds_for_chunk : ℚ :=
          max_size_bytes / bytes_per_second_at_target_bitrate
        let estimated_chunk_duration_ms : Int := ⌊max_duration_seconds_for_chunk * 1000⌋
        some (min estimated_chunk_duration_ms audio_duration_ms)

/-! ### ProcessingQueue (`utils.load_queue` / `save_queue` / `add_to_queue` /
`remove_from_queue`)

The persisted queue file is modelled as `Option (List Char)`: `none`
when the file does not exist, otherwise its character content. -/

/-- The queue file on disk (`config.QUEUE_FILE`): absent or its content. -/
def QueueFile := Option (List Char)

/-- The filter of `utils.load_queue`: Python `if line and not
line.startswith("#")` on the stripped line. -/
def keep_line (line : List Char) : Bool :=
  line ≠ [] ∧ line.head? ≠ some '#'

/-- `utils.load_queue`: read the file line by line, strip each line,
keep the non-empty lines that do not start with `'#'`.  A missing file
yields the empty queue. -/
def load_queue (st : QueueFile) : List (List Char) :=
  match st with
  | none => []
  | some content =>
    ((pysplit '\n' content).map pystrip).filter keep_line

/-- The fixed comment header written by `utils.save_queue`. -/
def queue_header : List Char :=
  ("# Voice Note Processing Queue\n# Format: file_path_or_url\n" ++
   "# Lines starting with # are comments\n\n").data

/-- `utils.save_queue`: the header followed by one item per line. -/
def save_queue (queue_items : List (List Char)) : List Char :=
  queue_header ++ (queue_items.map (fun item => item ++ ['\n'])).flatten

/-- `utils.add_to_queue`: append each item not already present, then
save.  Returns the new file state and the returned queue list. -/
def add_to_queue (st : QueueFile) (items : List (List Char)) :
    QueueFile × List (List Char) :=
  let current_queue :=
    items.foldl (fun q item => if item ∈ q then q else q ++ [item]) (load_queue st)
  (some (save_queue current_queue), current_queue)

/-- `utils.remove_from_queue`: delete the first matching entry and save;
when the item is absent nothing is written. -/
def remove_from_queue (st : QueueFile) (item : List Char) :
    QueueFile × List (List Char) :=
  let current_queue := load_queue st
  if item ∈ current_queue then
    let q := current_queue.erase item
    (some (save_queue q), q)
  else (st, current_queue)

/-! ### String lemmas -/

theorem dropWhile_head_false {p : Char → Bool} :
    ∀ {l : List Char} {c}, (l.dropWhile p).head? = some c → p c = false := by
  intro l
  induction l with
  | nil => intro c h; simp [List.dropWhile] at h
  | cons a t ih =>
    intro c h
    by_cases hp : p a
    · rw [List.dropWhile_cons_of_pos hp] at h; exact ih h
    · rw [List.dropWhile_cons_of_neg hp] at h
      simp at h
      subst h
      simpa using hp

theorem dropWhile_eq_self {p : Char → Bool} {l : List Char}
    (h : ∀ c, l.head? = some c → p c = false) : l.dropWhile p = l := by
  cases l with
  | nil => rfl
  | cons a t =>
    have := h a (by simp)
    rw [List.dropWhile_cons_of_neg (by simp [this])]

/-- `pystrip l` is a prefix of `l.dropWhile isWS`. -/
theorem pystrip_pref_dropWhile (l : List Char) :
    pystrip l <+: l.dropWhile isWS := by
  unfold pystrip
  have h1 : ((l.dropWhile isWS).reverse.dropWhile isWS) <:+
      (l.dropWhile isWS).reverse := List.dropWhile_suffix _
  have h2 := List.reverse_prefix.mpr h1
  simpa using h2

theorem pystrip_subset (l : List Char) : pystrip l ⊆ l :=
  fun _c hc =>
    (List.dropWhile_sublist (l := l) (p := isWS)).subset
      ((pystrip_pref_dropWhile l).sublist.subset hc)

theorem pystrip_head {l : List Char} {c : Char}
    (h : (pystrip l).head? = some c) : isWS c = false := by
  rcases pystrip_pref_dropWhile l with ⟨t, ht⟩
  cases hp : pystrip l with
  | nil => rw [hp] at h; simp at h
  | cons a r =>
    rw [hp] at h
    simp at h
    subst h
    apply dropWhile_head_false (l := l) (p := isWS)
    rw [← ht, hp]
    simp

theorem pystrip_last {l : List Char} {c : Char}
    (h : (pystrip l).getLast? = some c) : isWS c = false := by
  unfold pystrip at h
  rw [List.getLast?_reverse] at h
  exact dropWhile_head_false h

theorem pystrip_eq_self {l : List Char}
    (h1 : ∀ c, l.head? = some c → isWS c = false)
    (h2 : ∀ c, l.getLast? = some c → isWS c = false) : pystrip l = l := by
  unfold pystrip
  rw [dropWhile_eq_self h1]
  rw [dropWhile_eq_self (fun c hc => h2 c (by rwa [List.head?_reverse] at hc))]
  exact List.reverse_reverse l

theorem pystrip_idem (l : List Char) : pystrip (pystrip l) = pystrip l :=
  pystrip_eq_self (fun _c h => pystrip_head h) (fun _c h => pystrip_last h)

theorem pysplit_ne_nil (sep : Char) : ∀ l, pysplit sep l ≠ [] := by
  intro l
  induction l with
  | nil => simp [pysplit]
  | cons c cs ih =>
    by_cases h : c = sep
    · simp [pysplit, h]
    · simp only [pysplit, if_neg h]
      cases hp : pysplit sep cs with
      | nil => simp
      | cons p ps => simp

theorem pysplit_sep_not_mem (sep : Char) :
    ∀ l, ∀ x ∈ pysplit sep l, sep ∉ x := by
  intro l
  induction l with
  | nil =>
    intro x hx
    simp only [pysplit, List.mem_singleton] at hx
    simp [hx]
  | cons c cs ih =>
    intro x hx
    by_cases h : c = sep
    · simp only [pysplit, if_pos h] at hx
      rcases List.mem_cons.mp hx with hx | hx
      · simp [hx]
      · exact ih x hx
    · simp only [pysplit, if_neg h] at hx
      cases hp : pysplit sep cs with
      | nil => exact absurd hp (pysplit_ne_nil sep cs)
      | cons p ps =>
        rw [hp] at hx
        rcases List.mem_cons.mp hx with hx | hx
        · subst hx
          intro hmem
          rcases List.mem_cons.mp hmem with hmem | hmem
          · exact h hmem.symm
          · exact ih p (by rw [hp]; exact List.mem_cons_self p ps) hmem
        · exact ih x (by rw [hp]; exact List.mem_cons_of_mem p hx)

theorem pysplit_append_sep (sep : Char) (rest : List Char) :
    ∀ a : List Char, sep ∉ a →
      pysplit sep (a ++ sep :: rest) = a :: pysplit sep rest := by
  intro a
  induction a with
  | nil => intro _; simp [pysplit]
  | cons c a' ih =>
    intro h
    have hc : c ≠ sep := fun hc => h (by simp [hc])
    have ha' : sep ∉ a' := fun hm => h (by simp [hm])
    simp only [List.cons_append, pysplit, if_neg hc, List.append_eq]
    rw [ih ha']

/-! ### Queue lemmas and claims C5 / C6 -/

/-- Items that survive a save/load round trip unchanged: stripped of
surrounding whitespace, non-empty, not a comment, no newline. -/
abbrev cleanItem (i : List Char) : Prop :=
  pystrip i = i ∧ i ≠ [] ∧ i.head? ≠ some '#' ∧ '\n' ∉ i

theorem keep_line_iff (line : List Char) :
    keep_line line = true ↔ line ≠ [] ∧ line.head? ≠ some '#' := by
  simp [keep_line]

theorem load_queue_clean (st : QueueFile) :
    ∀ i ∈ load_queue st, cleanItem i := by
  intro i hi
  cases st with
  | none => simp [load_queue] at hi
  | some content =>
    simp only [load_queue, List.mem_filter, List.mem_map] at hi
    rcases hi with ⟨⟨line, hline, hstrip⟩, hpred⟩
    have hkeep : i ≠ [] ∧ i.head? ≠ some '#' := (keep_line_iff i).mp hpred
    refine ⟨?_, hkeep.1, hkeep.2, ?_⟩
    · rw [← hstrip]; exact pystrip_idem line
    · intro hmem
      exact pysplit_sep_not_mem '\n' content line hline
        (pystrip_subset line (hstrip ▸ hmem))

theorem pysplit_flatten_items :
    ∀ q : List (List Char), (∀ i ∈ q, '\n' ∉ i) →
      pysplit '\n' ((q.map (fun item => item ++ ['\n'])).flatten) = q ++ [[]] := by
  intro q
  induction q with
  | nil => intro _; simp [pysplit]
  | cons i rest ih =>
    intro h
    have hi : '\n' ∉ i := h i (by simp)
    simp only [List.map_cons, List.flatten_cons, List.append_assoc, List.cons_append,
      List.nil_append]
    rw [pysplit_append_sep '\n' _ i hi, ih (fun j hj => h j (by simp [hj]))]

/-- Saving a queue of clean items and loading it back returns the same
queue: the header lines and the blank line are filtered out. -/
theorem load_save_queue (q : List (List Char)) (h : ∀ i ∈ q, cleanItem i) :
    load_queue (some (save_queue q)) = q := by
  have hsplit : pysplit '\n' (save_queue q) =
      "# Voice Note Processing Queue".data :: "# Format: file_path_or_url".data ::
      "# Lines starting with # are comments".data :: [] :: (q ++ [[]]) := by
    have e : save_queue q =
        "# Voice Note Processing Queue".data ++ '\n' ::
        ("# Format: file_path_or_url".data ++ '\n' ::
        ("# Lines starting with # are comments".data ++ '\n' :: '\n' ::
        (q.map (fun item => item ++ ['\n'])).flatten)) := by
      simp [save_queue, queue_header]
    rw [e, pysplit_append_sep '\n' _ _ (by decide),
      pysplit_append_sep '\n' _ _ (by decide),
      pysplit_append_sep '\n' _ _ (by decide)]
    have : pysplit '\n' ('\n' :: (q.map (fun item => item ++ ['\n'])).flatten) =
        [] :: pysplit '\n' (q.map (fun item => item ++ ['\n'])).flatten := by
      simp [pysplit]
    rw [this, pysplit_flatten_items q (fun i hi => (h i hi).2.2.2)]
  have hmapq : q.map pystrip = q := by
    rw [List.map_congr_left (g := id) (fun i hi => (h i hi).1), List.map_id]
  have hfq : q.filter keep_line = q :=
    List.filter_eq_self.mpr
      (fun i hi => (keep_line_iff i).mpr ⟨(h i hi).2.1, (h i hi).2.2.1⟩)
  have k1 : ¬ keep_line (pystrip "# Voice Note Processing Queue".data) = true := by decide
  have k2 : ¬ keep_line (pystrip "# Format: file_path_or_url".data) = true := by decide
  have k3 : ¬ keep_line (pystrip "# Lines starting with # are comments".data) = true := by
    decide
  have k4 : ¬ keep_line (pystrip []) = true := by decide
  show ((pysplit '\n' (save_queue q)).map pystrip).filter keep_line = q
  rw [hsplit]
  rw [List.map_cons, List.map_cons, List.map_cons, List.map_cons]
  rw [List.filter_cons_of_neg k1, List.filter_cons_of_neg k2,
    List.filter_cons_of_neg k3, List.filter_cons_of_neg k4]
  rw [List.map_append, List.filter_append, hmapq, hfq]
  have k5 : List.filter keep_line (List.map pystrip [[]]) = [] := by decide
  rw [k5, List.append_nil]

/-- **C5, counterexample.** For the item `"a "` (trailing space),
adding it twice does not leave exactly one occurrence of it in the
persisted queue: the saved line loads back stripped, so the second add
re-appends, and the item itself never appears verbatim. -/
theorem add_to_queue_twice_dirty_item :
    ¬ ((load_queue (add_to_queue (add_to_queue (none : QueueFile) ["a ".data]).1
        ["a ".data]).1).count "a ".data = 1) := by
  decide

theorem add_to_queue_single (st : QueueFile) (x : List Char) :
    (add_to_queue st [x]).1 =
      some (save_queue (if x ∈ load_queue st then load_queue st
        else load_queue st ++ [x])) := by
  simp [add_to_queue]

theorem count_one_of_nodup_mem {x : List Char} :
    ∀ {q : List (List Char)}, q.Nodup → x ∈ q → q.count x = 1 := by
  intro q
  induction q with
  | nil => intro _ h; simp at h
  | cons a t ih =>
    intro hnd hm
    rw [List.count_cons]
    rcases List.mem_cons.mp hm with rfl | hm
    · rw [List.count_eq_zero_of_not_mem (List.nodup_cons.mp hnd).1]
      simp
    · rw [ih (List.nodup_cons.mp hnd).2 hm]
      have hne : ¬ (x = a) := fun h => (List.nodup_cons.mp hnd).1 (h ▸ hm)
      have hne2 : ¬ (a = x) := fun h => hne h.symm
      simp [hne, hne2]

/-- **C5, amended.** For a *clean* item `x` (strip-invariant, non-empty,
not a comment line, no newline) and a duplicate-free starting queue,
adding `[x]` twice leaves exactly one occurrence of `x`, and one add
keeps the queue duplicate-free. -/
theorem add_to_queue_idempotent (st : QueueFile) (x : List Char)
    (hx : cleanItem x) (hnd : (load_queue st).Nodup) :
    (load_queue (add_to_queue (add_to_queue st [x]).1 [x]).1).count x = 1 ∧
    (load_queue (add_to_queue st [x]).1).Nodup := by
  have hq := load_queue_clean st
  set q := load_queue st with hqdef
  have hclean1 : ∀ i ∈ (if x ∈ q then q else q ++ [x]), cleanItem i := by
    split
    · exact hq
    · intro i hi
      rcases List.mem_append.mp hi with hi | hi
      · exact hq i hi
      · simp at hi; subst hi; exact hx
  have load1 : load_queue (add_to_queue st [x]).1 = (if x ∈ q then q else q ++ [x]) := by
    rw [add_to_queue_single, ← hqdef, load_save_queue _ hclean1]
  have hmem1 : x ∈ (if x ∈ q then q else q ++ [x]) := by
    split
    · assumption
    · simp
  have load2 : load_queue (add_to_queue (add_to_queue st [x]).1 [x]).1 =
      (if x ∈ q then q else q ++ [x]) := by
    rw [add_to_queue_single, load1, if_pos hmem1, load_save_queue _ hclean1]
  constructor
  · rw [load2]
    split
    · rename_i hin
      exact count_one_of_nodup_mem hnd hin
    · rename_i hout
      rw [List.count_append]
      rw [List.count_eq_zero_of_not_mem hout]
      simp
  · rw [load1]
    split
    · exact hnd
    · rename_i hout
      simp [List.nodup_append, hnd, hout]

/-- Witness for C5 at the empty starting state and item `"a"`. -/
theorem add_to_queue_idempotent_witness :
    (load_queue (add_to_queue (add_to_queue (none : QueueFile) ["a".data]).1
        ["a".data]).1).count "a".data = 1 ∧
    (load_queue (add_to_queue (none : QueueFile) ["a".data]).1).Nodup :=
  add_to_queue_idempotent (none : QueueFile) "a".data (by decide) (by simp [load_queue])

/-- **C6, counterexample.** If `x` is already in the queue, `add [x]`
is a no-op but `remove x` then deletes the pre-existing occurrence, so
the queue is *not* restored to its pre-add state. -/
theorem add_remove_not_roundtrip_when_present :
    ¬ (load_queue (remove_from_queue
          (add_to_queue (add_to_queue (none : QueueFile) ["a".data]).1 ["a".data]).1
          "a".data).1 =
        load_queue (add_to_queue (none : QueueFile) ["a".data]).1) := by
  decide

/-- **C6, amended.** For a clean item `x` *not already present*,
`add [x]` then `remove x` restores the loaded queue (the file itself is
rewritten in canonical form). -/
theorem add_then_remove_roundtrip (st : QueueFile) (x : List Char)
    (hx : cleanItem x) (hnx : x ∉ load_queue st) :
    load_queue (remove_from_queue (add_to_queue st [x]).1 x).1 = load_queue st := by
  have hq := load_queue_clean st
  set q := load_queue st with hqdef
  have hclean1 : ∀ i ∈ q ++ [x], cleanItem i := by
    intro i hi
    rcases List.mem_append.mp hi with hi | hi
    · exact hq i hi
    · simp at hi; subst hi; exact hx
  have step1 : (add_to_queue st [x]).1 = some (save_queue (q ++ [x])) := by
    simp [add_to_queue, hnx]
  have load1 : load_queue (add_to_queue st [x]).1 = q ++ [x] := by
    rw [step1, load_save_queue _ hclean1]
  have herase : (q ++ [x]).erase x = q := by
    rw [List.erase_append_right _ hnx]
    simp
  simp only [remove_from_queue, load1]
  rw [if_pos (by simp)]
  simpa [herase] using load_save_queue q hq

/-- Witness for C6 at the empty starting state and item `"a"`. -/
theorem add_then_remove_roundtrip_witness :
    load_queue (remove_from_queue (add_to_queue (none : QueueFile) ["a".data]).1
        "a".data).1 = load_queue (none : QueueFile) :=
  add_then_remove_roundtrip (none : QueueFile) "a".data (by decide) (by simp [load_queue])

/-! ### Planner lemmas and claims C1 / C9 -/

theorem pyInt?_ne_empty {l : List Char} {k : Int} (h : pyInt? l = some k) : l ≠ [] := by
  intro he; subst he; simp [pyInt?] at h

/-- **C1.** For every positive duration `d` (ms), well-formed positive
bitrate string and positive size ceiling `m`, the planner returns a
chunk duration `r ≤ d` whose byte estimate at the declared bitrate,
`(r / 1000) * (kbps * 1000 / 8)`, is at most `m`. -/
theorem estimate_segment_duration_ms_bounds
    (d ch : Int) (s : List Char) (m : ℚ) (k : Int)
    (hd : 0 < d) (hm : 0 < m)
    (hs : pyInt? (pyReplaceK s) = some k) (hk : 0 < k) :
    ∃ r : Int, estimate_segment_duration_ms d ch s m = some r ∧
      r ≤ d ∧ (r : ℚ) / 1000 * ((k : ℚ) * 1000 / 8) ≤ m := by
  have hsne : s ≠ [] := by
    intro he; subst he; simp [pyReplaceK] at hs; simp [pyInt?] at hs
  have hB : (0 : ℚ) < (k : ℚ) * 1000 / 8 := by
    have : (0 : ℚ) < (k : ℚ) := by exact_mod_cast hk
    positivity
  refine ⟨min ⌊m / ((k : ℚ) * 1000 / 8) * 1000⌋ d, ?_, ?_, ?_⟩
  · unfold estimate_segment_duration_ms
    rw [if_neg (by push_neg; exact ⟨hsne, by omega, by positivity⟩), hs]
    simp [show ¬ k ≤ 0 by omega]
  · exact min_le_right _ _
  · set r := min ⌊m / ((k : ℚ) * 1000 / 8) * 1000⌋ d with hr
    have h1 : (r : ℚ) ≤ m / ((k : ℚ) * 1000 / 8) * 1000 := by
      have : r ≤ ⌊m / ((k : ℚ) * 1000 / 8) * 1000⌋ := min_le_left _ _
      calc (r : ℚ) ≤ (⌊m / ((k : ℚ) * 1000 / 8) * 1000⌋ : ℚ) := by exact_mod_cast this
        _ ≤ m / ((k : ℚ) * 1000 / 8) * 1000 := Int.floor_le _
    have h2 : (r : ℚ) / 1000 ≤ m / ((k : ℚ) * 1000 / 8) := by linarith
    calc (r : ℚ) / 1000 * ((k : ℚ) * 1000 / 8)
        ≤ m / ((k : ℚ) * 1000 / 8) * ((k : ℚ) * 1000 / 8) :=
          mul_le_mul_of_nonneg_right h2 (le_of_lt hB)
      _ = m := div_mul_cancel₀ m (ne_of_gt hB)

/-- Witness for C1 at `d = 10000` ms, bitrate `"192k"`, `m = 10^6` bytes. -/
theorem estimate_segment_duration_ms_bounds_witness :
    ∃ r : Int, estimate_segment_duration_ms 10000 2 ("192k".data) 1000000 = some r ∧
      r ≤ 10000 ∧ (r : ℚ) / 1000 * ((192 : ℚ) * 1000 / 8) ≤ 1000000 :=
  estimate_segment_duration_ms_bounds 10000 2 ("192k".data) 1000000 192
    (by decide) (by norm_num) (by decide) (by decide)

/-- **C9, counterexample.** On a strictly negative duration the planner
does not return `None`: it returns the (negative) duration itself. -/
theorem estimate_segment_duration_ms_negative_not_none :
    estimate_segment_duration_ms (-5) 2 ("192k".data) 1000000 ≠ none := by
  decide

/-- **C9, amended.** The planner returns `None` when the bitrate string
is malformed or non-positive or when the duration is zero (the computed
bytes-per-second is positive whenever the parsed bitrate is positive);
for a strictly *negative* duration it instead returns a negative
duration value, which the chunker rejects, rather than `None`. -/
theorem estimate_segment_duration_ms_failure_modes
    (d ch : Int) (s : List Char) (m : ℚ) :
    (pyInt? (pyReplaceK s) = none → estimate_segment_duration_ms d ch s m = none) ∧
    (∀ k : Int, pyInt? (pyReplaceK s) = some k → k ≤ 0 →
      estimate_segment_duration_ms d ch s m = none) ∧
    (d = 0 → estimate_segment_duration_ms d ch s m = none) ∧
    (d < 0 → ∀ r : Int, estimate_segment_duration_ms d ch s m = some r → r < 0) := by
  refine ⟨?_, ?_, ?_, ?_⟩
  · intro h
    unfold estimate_segment_duration_ms
    split
    · rfl
    · rw [h]
  · intro k hk hk0
    unfold estimate_segment_duration_ms
    split
    · rfl
    · rw [hk]; simp [hk0]
  · intro h
    unfold estimate_segment_duration_ms
    rw [if_pos (Or.inr (Or.inl h))]
  · intro hd r hr
    unfold estimate_segment_duration_ms at hr
    split at hr
    · exact absurd hr (by simp)
    · split at hr
      · exact absurd hr (by simp)
      · split at hr
        · exact absurd hr (by simp)
        · have h2 := Option.some.inj hr
          have h3 : r ≤ d := h2 ▸ min_le_right _ d
          omega

/-- Witness for C9: a zero duration yields `None`, and at duration
`-5` the planner yields a (negative) numeric duration. -/
theorem estimate_segment_duration_ms_failure_modes_witness :
    estimate_segment_duration_ms 0 2 ("192k".data) 1000000 = none ∧ (-5 : Int) < 0 := by
  refine ⟨(estimate_segment_duration_ms_failure_modes 0 2 ("192k".data) 1000000).2.2.1 rfl,
    (estimate_segment_duration_ms_failure_modes (-5) 2 ("192k".data) 1000000).2.2.2
      (by decide) (-5) ?_⟩
  have hp : pyInt? (pyReplaceK "192k".data) = some 192 := by decide
  have hcond : ¬ ("192k".data = [] ∨ (-5 : Int) = 0 ∨ (1000000 : ℚ) = 0) := by decide
  have hfl : (⌊(1000000 : ℚ) / (((192 : Int) : ℚ) * 1000 / 8) * 1000⌋ : Int) = 41666 := by
    have he : ((1000000 : ℚ) / (((192 : Int) : ℚ) * 1000 / 8) * 1000) = 125000 / 3 := by
      norm_num
    rw [he, Int.floor_eq_iff]
    norm_num
  simp only [estimate_segment_duration_ms, hp, if_neg hcond,
    if_neg (show ¬ (192 : Int) ≤ 0 from by decide), hfl]
  norm_num

/-! ### TranscriptionOrchestrator (`transcription.py`)

The external world of one transcription run: whether the Groq client is
configured, the per-chunk results of each provider (`none` models a
raised exception), and the chunk list produced by
`create_audio_chunks` (empty on chunking failure). -/

structure TEnv where
  /-- `api_clients.groq_client` is configured (truthy). -/
  groq_client : Bool
  /-- One Groq per-chunk transcription call; `none` = exception. -/
  groqT : List Char → Option (List Char)
  /-- One OpenAI per-chunk transcription call; `none` = exception. -/
  openaiT : List Char → Option (List Char)
  /-- `audio_processing.create_audio_chunks file_path` (deterministic
  within one run; empty list = chunking failure). -/
  chunks : List (List Char)
  /-- `os.path.exists file_path`. -/
  fileExists : Bool

/-- One iteration of the `transcribe_chunks` loop body: dispatch on the
service name exactly as the `if`/`elif`/`else` in the source; the final
`else` returns `None` (unsupported service). -/
def chunk_call (env : TEnv) (service : List Char) (chunk : List Char) :
    Option (List Char) :=
  if service = "groq".data ∧ env.groq_client then (env.groqT chunk).map pystrip
  else if service = "openai".data then (env.openaiT chunk).map pystrip
  else none

/-- The `for` loop of `transcribe_chunks`: sequential, aborting the
whole call on the first failed chunk. -/
def transcribe_chunks_go (f : List Char → Option (List Char)) :
    List (List Char) → Option (List (List Char))
  | [] => some []
  | c :: cs =>
    match f c with
    | none => none
    | some t =>
      match transcribe_chunks_go f cs with
      | none => none
      | some ts => some (t :: ts)

/-- `transcription.transcribe_chunks`: `None` on an empty chunk list,
otherwise all chunk transcripts joined by a blank line, or `None` if
any chunk fails. -/
def transcribe_chunks (env : TEnv) (chunk_files : List (List Char))
    (service : List Char) : Option (List Char) :=
  if chunk_files = [] then none
  else
    (transcribe_chunks_go (chunk_call env service) chunk_files).map
      (fun ts => (List.intersperse "\n\n".data ts).flatten)

/-- `transcription.transcribe_with_groq`. -/
def transcribe_with_groq (env : TEnv) (_file_path : List Char) : Option (List Char) :=
  if ¬ env.groq_client then none
  else if env.chunks = [] then none
  else transcribe_chunks env env.chunks "groq".data

/-- `transcription.transcribe_audio_file`: Groq first, then the OpenAI
fallback over freshly created chunks. -/
def transcribe_audio_file (env : TEnv) (file_path : List Char) : Option (List Char) :=
  if file_path = [] ∨ ¬ env.fileExists then none
  else
    match transcribe_with_groq env file_path with
    | some transcript => some transcript
    | none =>
      if env.chunks = [] then none
      else transcribe_chunks env env.chunks "openai".data

theorem transcribe_chunks_go_none {f : List Char → Option (List Char)} :
    ∀ {cs : List (List Char)} {c}, c ∈ cs → f c = none →
      transcribe_chunks_go f cs = none := by
  intro cs
  induction cs with
  | nil => intro c h; simp at h
  | cons a t ih =>
    intro c hm hf
    rcases List.mem_cons.mp hm with rfl | hm
    · simp [transcribe_chunks_go, hf]
    · unfold transcribe_chunks_go
      cases hfa : f a with
      | none => rfl
      | some ta => rw [ih hm hf]

/-- **C3.** If every configured provider fails on some chunk of its
sequence (Groq — when configured at all — raises on some chunk, and so
does OpenAI), `transcribe_audio_file` returns `None`: no partial
transcript ever escapes. -/
theorem transcribe_audio_file_all_fail (env : TEnv) (file_path : List Char)
    (hgroq : env.groq_client = true → ∃ c ∈ env.chunks, env.groqT c = none)
    (hopenai : ∃ c ∈ env.chunks, env.openaiT c = none) :
    transcribe_audio_file env file_path = none := by
  unfold transcribe_audio_file
  split
  · rfl
  · have hgn : transcribe_with_groq env file_path = none := by
      unfold transcribe_with_groq
      split
      · rfl
      · split
        · rfl
        · rename_i hcfg _
          rw [Bool.not_eq_true, Bool.not_eq_false] at hcfg
          obtain ⟨c, hc, hfail⟩ := hgroq hcfg
          unfold transcribe_chunks
          split
          · rfl
          · rw [transcribe_chunks_go_none hc
              (by simp [chunk_call, hcfg, hfail])]
            rfl
    rw [hgn]
    show (if env.chunks = [] then none
      else transcribe_chunks env env.chunks "openai".data) = none
    split
    · rfl
    · obtain ⟨c, hc, hfail⟩ := hopenai
      unfold transcribe_chunks
      split
      · rfl
      · rw [transcribe_chunks_go_none hc (by simp [chunk_call, hfail])]
        rfl

/-- Witness for C3: Groq configured but raising on the second chunk,
OpenAI raising on the first. -/
theorem transcribe_audio_file_all_fail_witness :
    transcribe_audio_file
      { groq_client := true
        groqT := fun c => if c = "chunk_001.mp3".data then none else some "ok".data
        openaiT := fun _ => none
        chunks := ["chunk_000.mp3".data, "chunk_001.mp3".data]
        fileExists := true } "note.mp3".data = none :=
  transcribe_audio_file_all_fail _ _
    (fun _ => ⟨"chunk_001.mp3".data, by decide, by decide⟩)
    ⟨"chunk_000.mp3".data, by decide, by decide⟩

/-! ### PipelineCoordinator (`main.process_file`)

The coordinator is embedded as a function of an environment that fixes
the outcome of every external call; it returns the reported success
flag together with the ordered trace of the calls it performed. -/

/-- `os.path.basename` (POSIX separator, as used for the audio paths). -/
def pybasename (path : List Char) : List Char :=
  (pysplit '/' path).getLastD []

/-- The root component of `os.path.splitext`: cut at the last `'.'`
unless every character before it is itself a `'.'`. -/
def pysplitext_root (name : List Char) : List Char :=
  let after := (name.reverse.takeWhile (fun c => c ≠ '.')).length
  if after = name.length then name
  else
    let d := name.length - after - 1
    if (name.take d).all (fun c => c = '.') then name else name.take d

/-- Python truthiness of an optional string: `None` and `""` are falsy. -/
def isTruthy (o : Option (List Char)) : Bool :=
  match o with
  | none => false
  | some s => s ≠ []

/-- The calls `process_file` can make, in the order it made them. -/
inductive Ev where
  | transcribe (file_path : List Char)
  | gemini (transcript : List Char)
  | openai (transcript : List Char)
  | backup (title content original_filename : List Char)
  | notion (title content : List Char)
  | markProcessed (file_path : List Char)
  | notifySuccess
  | notifyError
deriving DecidableEq

/-- Outcomes of the external calls made by `main.process_file`. -/
structure PFEnv where
  /-- `os.path.exists file_path`. -/
  fileExists : Bool
  /-- `transcription.transcribe_audio_file file_path`. -/
  transcribeR : Option (List Char)
  /-- `summarization.summarize_with_gemini transcript`. -/
  geminiR : List Char → Option (List Char)
  /-- `summarization.summarize_with_openai transcript`. -/
  openaiR : List Char → Option (List Char)
  /-- `notion_integration.save_backup_markdown title content original`:
  the backup path, or `none` on failure. -/
  backupR : List Char → List Char → Option (List Char)
  /-- `notion_integration.add_to_notion title content`: `none` models a
  falsy result (publish failure). -/
  notionR : List Char → List Char → Option Unit

/-- The summary chosen by steps 2 of `process_file`: Gemini, then
OpenAI, then the raw transcript. -/
def pf_summary (env : PFEnv) (transcript : List Char) : List Char :=
  if isTruthy (env.geminiR transcript) then (env.geminiR transcript).getD []
  else if isTruthy (env.openaiR transcript) then (env.openaiR transcript).getD []
  else transcript

/-- The summarization calls actually issued (OpenAI only after Gemini
came back falsy). -/
def pf_summary_evs (env : PFEnv) (transcript : List Char) : List Ev :=
  if isTruthy (env.geminiR transcript) then [Ev.gemini transcript]
  else [Ev.gemini transcript, Ev.openai transcript]

/-- `main.process_file`: transcribe, summarize with fallback, save the
markdown backup, attempt the Notion publish, and append to the
processed ledger whenever the backup exists — publish failure only
degrades the notification.  Returns the success flag and the trace. -/
def process_file (env : PFEnv) (file_path : List Char) : Bool × List Ev :=
  if file_path = [] ∨ ¬ env.fileExists then (false, [])
  else if ¬ isTruthy env.transcribeR then
    (false, [Ev.transcribe file_path, Ev.notifyError])
  else
    let transcript := env.transcribeR.getD []
    let summary := pf_summary env transcript
    let title := pysplitext_root (pybasename file_path)
    let original_filename := pybasename file_path
    let backup_path := env.backupR title summary
    let result := env.notionR title summary
    let pre := Ev.transcribe file_path :: pf_summary_evs env transcript ++
      [Ev.backup title summary original_filename, Ev.notion title summary]
    if isTruthy backup_path then
      if result.isSome then
        (true, pre ++ [Ev.markProcessed file_path, Ev.notifySuccess])
      else
        (true, pre ++ [Ev.markProcessed file_path, Ev.notifyError])
    else
      (false, pre ++ [Ev.notifyError])

/-! ### Claim C2 -/

/-- **C2.** Whenever the file exists and transcription succeeds:
(1) the backup write appears in the trace strictly before the publish
attempt; (2) if the backup write succeeds, the item is appended to the
processed ledger and `process_file` reports success, independent of the
publish outcome; (3) when both summarization providers fail, the
content that is backed up (and published) is the raw transcript. -/
theorem process_file_backup_first (env : PFEnv) (file_path : List Char)
    (hfp : file_path ≠ []) (hex : env.fileExists = true)
    (ht : isTruthy env.transcribeR = true) :
    (∃ i j, i < j ∧
      (process_file env file_path).2.get? i =
        some (Ev.backup (pysplitext_root (pybasename file_path))
          (pf_summary env (env.transcribeR.getD []))
          (pybasename file_path)) ∧
      (process_file env file_path).2.get? j =
        some (Ev.notion (pysplitext_root (pybasename file_path))
          (pf_summary env (env.transcribeR.getD [])))) ∧
    (isTruthy (env.backupR (pysplitext_root (pybasename file_path))
        (pf_summary env (env.transcribeR.getD []))) = true →
      (process_file env file_path).1 = true ∧
      Ev.markProcessed file_path ∈ (process_file env file_path).2) ∧
    (isTruthy (env.geminiR (env.transcribeR.getD [])) = false →
      isTruthy (env.openaiR (env.transcribeR.getD [])) = false →
      pf_summary env (env.transcribeR.getD []) = env.transcribeR.getD []) := by
  have hne : ¬ (file_path = [] ∨ ¬ env.fileExists = true) := by
    push_neg
    exact ⟨hfp, by simp [hex]⟩
  refine ⟨?_, ?_, ?_⟩
  · unfold process_file
    rw [if_neg hne, if_neg (by simp [ht])]
    by_cases hg : isTruthy (env.geminiR (env.transcribeR.getD [])) = true
    · refine ⟨2, 3, by omega, ?_, ?_⟩ <;>
        · simp only [pf_summary_evs, hg, if_true]
          split <;> first | (split <;> rfl) | rfl
    · refine ⟨3, 4, by omega, ?_, ?_⟩ <;>
        · simp only [pf_summary_evs, hg, if_false, Bool.false_eq_true]
          split <;> first | (split <;> rfl) | rfl
  · intro hb
    unfold process_file
    rw [if_neg hne, if_neg (by simp [ht])]
    simp only [hb, if_true]
    constructor
    · split <;> rfl
    · split <;> simp
  · intro hg ho
    unfold pf_summary
    rw [hg, ho]
    simp

/-- Witness for C2: transcription succeeds, both summarizers fail, the
backup succeeds and the publish fails — the item is still recorded and
reported as a success, with the raw transcript as content. -/
theorem process_file_backup_first_witness :
    (process_file
      { fileExists := true
        transcribeR := some "the raw transcript".data
        geminiR := fun _ => none
        openaiR := fun _ => none
        backupR := fun _ _ => some "backup.md".data
        notionR := fun _ _ => none } "note.mp3".data).1 = true ∧
    Ev.markProcessed "note.mp3".data ∈
      (process_file
        { fileExists := true
          transcribeR := some "the raw transcript".data
          geminiR := fun _ => none
          openaiR := fun _ => none
          backupR := fun _ _ => some "backup.md".data
          notionR := fun _ _ => none } "note.mp3".data).2 :=
  (process_file_backup_first _ _ (by decide) rfl (by decide)).2.1 (by decide)

/-! ### MarkdownToBlockConverter (`notion_integration.py`)

`parse_rich_text` relies on `re.split(r"(\*\*.*?\*\*|__.*?__)", text)`
and `re.split(r"(\*.*?\*|_.*?_)", part)`: a left-to-right scan that at
each position matches a delimiter pair lazily (`.` does not match a
newline), emitting the captured matches between the gaps.  The scan is
embedded directly. -/

/-- `config.NOTION_MAX_CHUNK_SIZE`. -/
def NOTION_MAX_CHUNK_SIZE : Nat := 2000

/-- One rich-text run: content plus the bold/italic annotation. -/
structure TRun where
  content : List Char
  bold : Bool
  italic : Bool
deriving DecidableEq

/-- The Notion block variants built by `parse_markdown_to_notion_blocks`
(heading levels are already clamped to 1–3 by the parser). -/
inductive Block where
  | heading (level : Nat) (rich : List TRun)
  | bulleted_list_item (rich : List TRun)
  | numbered_list_item (rich : List TRun)
  | code (rich : List TRun)
  | quote (rich : List TRun)
  | paragraph (rich : List TRun)
deriving DecidableEq

/-- Lazy search for the closing delimiter `d`: the first position where
`d` matches, with no newline allowed in between (regex `.` excludes
newlines).  Returns the middle part and the remainder after the close. -/
def findCloseRE (d : List Char) : List Char → List Char → Option (List Char × List Char)
  | [], _ => none
  | c :: cs, acc =>
    if d.isPrefixOf (c :: cs) then some (acc.reverse, (c :: cs).drop d.length)
    else if c = '\n' then none
    else findCloseRE d cs (c :: acc)

/-- Match `d ... d` (lazy middle) at the head of `l`; the delimiter is
passed as head and tail so it is never empty. -/
def matchDelim (d0 : Char) (dr : List Char) (l : List Char) :
    Option (List Char × List Char) :=
  if (d0 :: dr).isPrefixOf l then
    match findCloseRE (d0 :: dr) (l.drop (d0 :: dr).length) [] with
    | some (mid, rest) => some ((d0 :: dr) ++ mid ++ (d0 :: dr), rest)
    | none => none
  else none

theorem findCloseRE_length {d0 : Char} {dr : List Char} :
    ∀ {l acc mid rest : List Char},
      findCloseRE (d0 :: dr) l acc = some (mid, rest) → rest.length < l.length := by
  intro l
  induction l with
  | nil => intro acc mid rest h; simp [findCloseRE] at h
  | cons c cs ih =>
    intro acc mid rest h
    simp only [findCloseRE] at h
    split at h
    · have h4 := congrArg Prod.snd (Option.some.inj h)
      simp only at h4
      rw [← h4]
      simp only [List.length_drop, List.length_cons]
      omega
    · split at h
      · simp at h
      · have := ih h
        simp only [List.length_cons]
        omega

theorem matchDelim_length {d0 : Char} {dr l m rest : List Char}
    (h : matchDelim d0 dr l = some (m, rest)) : rest.length < l.length := by
  unfold matchDelim at h
  split at h
  · rename_i hpre
    cases hf : findCloseRE (d0 :: dr) (l.drop (d0 :: dr).length) [] with
    | none => rw [hf] at h; simp at h
    | some pr =>
      rw [hf] at h
      obtain ⟨mid, rest2⟩ := pr
      have h4 := congrArg Prod.snd (Option.some.inj h)
      simp only at h4
      have h5 := findCloseRE_length hf
      rw [← h4]
      have h6 := List.length_drop ((d0 :: dr).length) l
      have h7 : (d0 :: dr).length ≤ l.length :=
        (List.isPrefixOf_iff_prefix.mp hpre).length_le
      simp only [List.length_cons] at h5 h6 h7 ⊢
      omega
  · simp at h

theorem dropWhile_length_lt_cons {α} (p : α → Bool) (a : α) (rest : List α) :
    (rest.dropWhile p).length < (a :: rest).length := by
  have h := (List.dropWhile_sublist (l := rest) (p := p)).length_le
  simp only [List.length_cons]
  omega

theorem dropWhile_drop_lt_cons {α} (p : α → Bool) (a : α) (rest : List α) :
    ((rest.dropWhile p).drop 1).length < (a :: rest).length := by
  have h := (List.dropWhile_sublist (l := rest) (p := p)).length_le
  have h2 := List.length_drop 1 (rest.dropWhile p)
  simp only [List.length_cons]
  omega

/-- `re.split(r"(D..D|E..E)", ·)`: the left-to-right scan, returning
the alternating gap/match parts (matches included, as the pattern is a
capture group).  `gap` accumulates the current gap in reverse; the
fuel, at least the length of the remaining text, makes the recursion
structural (each step consumes at least one character). -/
def reSplit_go (d0 : Char) (dr : List Char) (e0 : Char) (er : List Char) :
    Nat → List Char → List Char → List (List Char)
  | 0, gap, _ => [gap.reverse]
  | fuel + 1, gap, l =>
    match matchDelim d0 dr l with
    | some (m, rest) => gap.reverse :: m :: reSplit_go d0 dr e0 er fuel [] rest
    | none =>
      match matchDelim e0 er l with
      | some (m, rest) => gap.reverse :: m :: reSplit_go d0 dr e0 er fuel [] rest
      | none =>
        match l with
        | [] => [gap.reverse]
        | c :: cs => reSplit_go d0 dr e0 er fuel (c :: gap) cs

/-- The split scan, at its natural amount of fuel. -/
def reSplit (d0 : Char) (dr : List Char) (e0 : Char) (er : List Char)
    (gap : List Char) (l : List Char) : List (List Char) :=
  reSplit_go d0 dr e0 er l.length gap l

/-- The classification of one part of the italic-level split
(`italic_part` loop body of `parse_rich_text`). -/
def classify_italic_part (p : List Char) : List TRun :=
  if p = [] then []
  else if startsWithL ['*'] p ∧ endsWithL ['*'] p ∧ ¬ startsWithL ['*', '*'] p then
    [⟨(p.drop 1).dropLast, false, true⟩]
  else if startsWithL ['_'] p ∧ endsWithL ['_'] p ∧ ¬ startsWithL ['_', '_'] p then
    [⟨(p.drop 1).dropLast, false, true⟩]
  else [⟨p, false, false⟩]

/-- The classification of one part of the bold-level split (`part` loop
body of `parse_rich_text`): a bold span, or an italic-level split of
the remaining text. -/
def classify_bold_part (p : List Char) : List TRun :=
  if p = [] then []
  else if startsWithL ['*', '*'] p ∧ endsWithL ['*', '*'] p then
    [⟨((p.drop 2).dropLast).dropLast, true, false⟩]
  else if startsWithL ['_', '_'] p ∧ endsWithL ['_', '_'] p then
    [⟨((p.drop 2).dropLast).dropLast, true, false⟩]
  else
    ((reSplit '*' [] '_' [] [] p).map classify_italic_part).flatten

/-- `notion_integration.parse_rich_text`. -/
def parse_rich_text (text : List Char) : List TRun :=
  if text = [] then [⟨[], false, false⟩]
  else
    let parts := reSplit '*' ['*'] '_' ['_'] [] text
    let rich_text := (parts.map classify_bold_part).flatten
    if rich_text = [] then [⟨text, false, false⟩] else rich_text

/-- Bullet-line test: `startswith(("- ", "* ", "+ "))`. -/
def isBulletLine (line : List Char) : Bool :=
  startsWithL "- ".data line || startsWithL "* ".data line || startsWithL "+ ".data line

/-- Numbered-line test: `re.match(r"^\d+\.", line)`. -/
def isNumberedLine (line : List Char) : Bool :=
  line.takeWhile Char.isDigit ≠ [] ∧ (line.dropWhile Char.isDigit).head? = some '.'

/-- `re.sub(r"^\d+\.\s*", "", line)` on a line known to match. -/
def numberedText (line : List Char) : List Char :=
  ((line.dropWhile Char.isDigit).drop 1).dropWhile isWS

/-- `notion_integration.is_special_line`. -/
def is_special_line (line : List Char) : Bool :=
  let stripped := pystrip line
  stripped.head? = some '#' || isBulletLine stripped || isNumberedLine stripped ||
    startsWithL "```".data stripped || stripped.head? = some '>'

/-- The long-paragraph slicing `[text[j:j+N] for j in range(0, len, N)]`
with `N = NOTION_MAX_CHUNK_SIZE`, fuelled to be structural. -/
def pychunks_go : Nat → List Char → List (List Char)
  | _, [] => []
  | 0, _ :: _ => []
  | fuel + 1, c :: cs =>
    (c :: cs).take NOTION_MAX_CHUNK_SIZE ::
      pychunks_go fuel ((c :: cs).drop NOTION_MAX_CHUNK_SIZE)

/-- The paragraph slicing, at its natural amount of fuel. -/
def pychunks (l : List Char) : List (List Char) := pychunks_go l.length l

/-- The `while i < len(lines)` loop of
`notion_integration.parse_markdown_to_notion_blocks`, phrased as
recursion over the remaining lines; each grouping construct consumes
its run of lines via `takeWhile`/`dropWhile` exactly as the index
manipulation in the source does.  The fuel, at least the number of
remaining lines, makes the recursion structural (every iteration
consumes at least the current line). -/
def parse_lines_go : Nat → List (List Char) → List Block
  | _, [] => []
  | 0, _ :: _ => []
  | fuel + 1, raw :: rest =>
    let line := pystrip raw
    if line = [] then parse_lines_go fuel rest
    else if line.head? = some '#' then
      let heading_level := min (line.takeWhile (fun c => c = '#')).length 3
      let heading_text := pystrip (line.dropWhile (fun c => c = '#'))
      Block.heading heading_level [⟨heading_text, false, false⟩] :: parse_lines_go fuel rest
    else if isBulletLine line then
      ((raw :: rest.takeWhile (fun l2 => isBulletLine (pystrip l2))).map (fun l2 =>
        Block.bulleted_list_item (parse_rich_text (pystrip ((pystrip l2).drop 2))))) ++
      parse_lines_go fuel (rest.dropWhile (fun l2 => isBulletLine (pystrip l2)))
    else if isNumberedLine line then
      ((raw :: rest.takeWhile (fun l2 => isNumberedLine (pystrip l2))).map (fun l2 =>
        Block.numbered_list_item (parse_rich_text (numberedText (pystrip l2))))) ++
      parse_lines_go fuel (rest.dropWhile (fun l2 => isNumberedLine (pystrip l2)))
    else if startsWithL "```".data line then
      Block.code [⟨List.intercalate ['\n']
          (rest.takeWhile (fun l2 => ¬ startsWithL "```".data (pystrip l2))), false, false⟩] ::
      parse_lines_go fuel ((rest.dropWhile (fun l2 => ¬ startsWithL "```".data (pystrip l2))).drop 1)
    else if line.head? = some '>' then
      (let quote_content :=
        ((raw :: rest.takeWhile (fun l2 => (pystrip l2).head? = some '>')).map
          (fun l2 => pystrip ((pystrip l2).drop 1))).filter (fun t => t ≠ [])
      if quote_content = [] then []
      else [Block.quote [⟨List.intercalate [' '] quote_content, false, false⟩]]) ++
      parse_lines_go fuel (rest.dropWhile (fun l2 => (pystrip l2).head? = some '>'))
    else
      (let paragraph_text := List.intercalate [' ']
        (line :: (rest.takeWhile (fun l2 => pystrip l2 ≠ [] ∧ ¬ is_special_line l2)).map
          pystrip)
      if paragraph_text.length > NOTION_MAX_CHUNK_SIZE then
        (pychunks paragraph_text).map (fun ch => Block.paragraph (parse_rich_text ch))
      else [Block.paragraph (parse_rich_text paragraph_text)]) ++
      parse_lines_go fuel (rest.dropWhile (fun l2 => pystrip l2 ≠ [] ∧ ¬ is_special_line l2))

/-- The parser loop, at its natural amount of fuel. -/
def parse_lines (lines : List (List Char)) : List Block :=
  parse_lines_go lines.length lines

/-- `notion_integration.parse_markdown_to_notion_blocks`. -/
def parse_markdown_to_notion_blocks (content : List Char) : List Block :=
  parse_lines (pysplit '\n' content)

/-! ### Claim C7 -/

/-- **C7.** Converting `"# Title\n\n- a\n- b\n\n1. x\n2. y"` yields
exactly five blocks in order: a level-1 heading `"Title"`, bulleted
items `"a"` and `"b"`, and numbered items `"x"` and `"y"`. -/
theorem parse_markdown_basic_document :
    parse_markdown_to_notion_blocks ("# Title\n\n- a\n- b\n\n1. x\n2. y".data) =
      [Block.heading 1 [⟨"Title".data, false, false⟩],
       Block.bulleted_list_item [⟨"a".data, false, false⟩],
       Block.bulleted_list_item [⟨"b".data, false, false⟩],
       Block.numbered_list_item [⟨"x".data, false, false⟩],
       Block.numbered_list_item [⟨"y".data, false, false⟩]] := by
  decide

/-! ### Rich-text and block helpers -/

/-- The rich-text run list carried by a block. -/
def Block.rich : Block → List TRun
  | .heading _ r => r
  | .bulleted_list_item r => r
  | .numbered_list_item r => r
  | .code r => r
  | .quote r => r
  | .paragraph r => r

/-- Whether a block is a quote block. -/
def Block.isQuote : Block → Bool
  | .quote _ => true
  | _ => false

/-- The text content of a block: its runs' contents concatenated. -/
def Block.text (b : Block) : List Char :=
  (b.rich.map TRun.content).flatten

theorem parse_rich_text_ne_nil (text : List Char) : parse_rich_text text ≠ [] := by
  unfold parse_rich_text
  split
  · simp
  · dsimp only
    split
    · simp
    · assumption

theorem matchDelim_not_prefix {d0 : Char} {dr l : List Char}
    (h : (d0 :: dr).isPrefixOf l = false) : matchDelim d0 dr l = none := by
  simp [matchDelim, h]

theorem isPrefixOf_cons_ne {d c : Char} (dr l : List Char) (h : d ≠ c) :
    (d :: dr).isPrefixOf (c :: l) = false := by
  simp [List.isPrefixOf, h]

theorem matchDelim_nil {d0 : Char} {dr : List Char} : matchDelim d0 dr [] = none := by
  simp [matchDelim, List.isPrefixOf]

/-- A text containing neither delimiter head character is one single
gap for the split scan. -/
theorem reSplit_go_no_delims {d0 e0 : Char} {dr er : List Char} :
    ∀ (fuel : Nat) (gap l : List Char), l.length ≤ fuel →
      (∀ c ∈ l, c ≠ d0 ∧ c ≠ e0) →
      reSplit_go d0 dr e0 er fuel gap l = [gap.reverse ++ l] := by
  intro fuel
  induction fuel with
  | zero =>
    intro gap l hlen _
    have : l = [] := List.length_eq_zero.mp (Nat.le_zero.mp hlen)
    subst this
    simp [reSplit_go]
  | succ fuel ih =>
    intro gap l hlen h
    cases l with
    | nil => simp [reSplit_go, matchDelim_nil]
    | cons c cs =>
      have hc := h c (by simp)
      have h1 : matchDelim d0 dr (c :: cs) = none :=
        matchDelim_not_prefix (isPrefixOf_cons_ne _ _ (fun he => hc.1 he.symm))
      have h2 : matchDelim e0 er (c :: cs) = none :=
        matchDelim_not_prefix (isPrefixOf_cons_ne _ _ (fun he => hc.2 he.symm))
      simp only [reSplit_go, h1, h2]
      rw [ih (c :: gap) cs (by simpa using hlen) (fun x hx => h x (by simp [hx]))]
      simp

theorem reSplit_no_delims {d0 e0 : Char} {dr er : List Char} {l : List Char}
    (h : ∀ c ∈ l, c ≠ d0 ∧ c ≠ e0) :
    reSplit d0 dr e0 er [] l = [l] := by
  unfold reSplit
  rw [reSplit_go_no_delims l.length [] l le_rfl h]
  simp

theorem classify_italic_part_plain {p : List Char} (hne : p ≠ [])
    (h : ∀ c ∈ p, c ≠ '*' ∧ c ≠ '_') :
    classify_italic_part p = [⟨p, false, false⟩] := by
  cases p with
  | nil => exact absurd rfl hne
  | cons c cs =>
    have hc := h c (by simp)
    unfold classify_italic_part
    rw [if_neg (by simp)]
    rw [if_neg (by
      simp only [startsWithL, isPrefixOf_cons_ne _ _ (fun he => hc.1 he.symm)]
      simp)]
    rw [if_neg (by
      simp only [startsWithL, isPrefixOf_cons_ne _ _ (fun he => hc.2 he.symm)]
      simp)]

theorem classify_bold_part_plain {p : List Char} (hne : p ≠ [])
    (h : ∀ c ∈ p, c ≠ '*' ∧ c ≠ '_') :
    classify_bold_part p = [⟨p, false, false⟩] := by
  cases hp : p with
  | nil => exact absurd hp hne
  | cons c cs =>
    have hc := h c (by simp [hp])
    subst hp
    unfold classify_bold_part
    rw [if_neg (by simp)]
    rw [if_neg (by
      simp only [startsWithL, isPrefixOf_cons_ne _ _ (fun he => hc.1 he.symm)]
      simp)]
    rw [if_neg (by
      simp only [startsWithL, isPrefixOf_cons_ne _ _ (fun he => hc.2 he.symm)]
      simp)]
    rw [reSplit_no_delims h]
    simp [classify_italic_part_plain (by simp) h]

theorem parse_rich_text_plain {text : List Char} (hne : text ≠ [])
    (h : ∀ c ∈ text, c ≠ '*' ∧ c ≠ '_') :
    parse_rich_text text = [⟨text, false, false⟩] := by
  unfold parse_rich_text
  rw [if_neg hne, reSplit_no_delims h]
  simp [classify_bold_part_plain hne h]

theorem intercalate_ne_nil {sep : List Char} {l : List (List Char)} (hne : l ≠ [])
    (h : ∀ x ∈ l, x ≠ []) : List.intercalate sep l ≠ [] := by
  cases l with
  | nil => exact absurd rfl hne
  | cons a rest =>
    have ha := h a (by simp)
    cases rest with
    | nil => simpa [List.intercalate, List.intersperse] using ha
    | cons b bs =>
      simp only [List.intercalate, List.intersperse, List.flatten_cons, ne_eq,
        List.append_eq_nil]
      intro hcontra
      exact ha hcontra.1

/-! ### Claim C10 -/

theorem parse_lines_go_invariants :
    ∀ (fuel : Nat) (lines : List (List Char)), ∀ b ∈ parse_lines_go fuel lines,
      Block.rich b ≠ [] ∧ (Block.isQuote b = true → Block.text b ≠ []) := by
  intro fuel
  induction fuel with
  | zero =>
    intro lines b hb
    cases lines <;> simp [parse_lines_go] at hb
  | succ fuel ih =>
    intro lines b hb
    cases lines with
    | nil => simp [parse_lines_go] at hb
    | cons raw rest =>
      simp only [parse_lines_go] at hb
      split at hb
      · exact ih rest b hb
      · split at hb
        · -- heading
          rcases List.mem_cons.mp hb with rfl | hb
          · exact ⟨by simp [Block.rich], by simp [Block.isQuote]⟩
          · exact ih rest b hb
        · split at hb
          · -- bulleted run
            rcases List.mem_append.mp hb with hb | hb
            · rcases List.mem_map.mp hb with ⟨l2, _, rfl⟩
              exact ⟨by simp [Block.rich, parse_rich_text_ne_nil],
                by simp [Block.isQuote]⟩
            · exact ih _ b hb
          · split at hb
            · -- numbered run
              rcases List.mem_append.mp hb with hb | hb
              · rcases List.mem_map.mp hb with ⟨l2, _, rfl⟩
                exact ⟨by simp [Block.rich, parse_rich_text_ne_nil],
                  by simp [Block.isQuote]⟩
              · exact ih _ b hb
            · split at hb
              · -- code block
                rcases List.mem_cons.mp hb with rfl | hb
                · exact ⟨by simp [Block.rich], by simp [Block.isQuote]⟩
                · exact ih _ b hb
              · split at hb
                · -- quote run
                  rcases List.mem_append.mp hb with hb | hb
                  · split at hb
                    · simp at hb
                    · rename_i hqc
                      simp only [List.mem_singleton] at hb
                      subst hb
                      refine ⟨by simp [Block.rich], fun _ => ?_⟩
                      have ht : Block.text (Block.quote
                          [⟨List.intercalate [' ']
                            (((raw :: rest.takeWhile
                                (fun l2 => (pystrip l2).head? = some '>')).map
                              (fun l2 => pystrip ((pystrip l2).drop 1))).filter
                              (fun t => t ≠ [])), false, false⟩]) =
                          List.intercalate [' ']
                            (((raw :: rest.takeWhile
                                (fun l2 => (pystrip l2).head? = some '>')).map
                              (fun l2 => pystrip ((pystrip l2).drop 1))).filter
                              (fun t => t ≠ [])) := by
                        simp [Block.text, Block.rich]
                      rw [ht]
                      refine intercalate_ne_nil hqc ?_
                      intro x hx
                      simpa using (List.mem_filter.mp hx).2
                  · exact ih _ b hb
                · -- paragraph
                  rcases List.mem_append.mp hb with hb | hb
                  · split at hb
                    · rcases List.mem_map.mp hb with ⟨ch, _, rfl⟩
                      exact ⟨by simp [Block.rich, parse_rich_text_ne_nil],
                        by simp [Block.isQuote]⟩
                    · simp only [List.mem_singleton] at hb
                      subst hb
                      exact ⟨by simp [Block.rich, parse_rich_text_ne_nil],
                        by simp [Block.isQuote]⟩
                  · exact ih _ b hb

theorem parse_lines_go_all_blank :
    ∀ (fuel : Nat) (lines : List (List Char)),
      (∀ l ∈ lines, pystrip l = []) → parse_lines_go fuel lines = [] := by
  intro fuel
  induction fuel with
  | zero => intro lines _; cases lines <;> rfl
  | succ fuel ih =>
    intro lines h
    cases lines with
    | nil => rfl
    | cons raw rest =>
      simp only [parse_lines_go]
      rw [if_pos (h raw (by simp))]
      exact ih rest (fun l hl => h l (by simp [hl]))

/-- **C10.** Every block produced by the markdown converter carries a
non-empty rich-text run list; a quote block is only emitted with
non-empty collected text; and an input of blank lines only converts to
no blocks at all. -/
theorem parse_markdown_blocks_invariants (content : List Char) :
    (∀ b ∈ parse_markdown_to_notion_blocks content, Block.rich b ≠ []) ∧
    (∀ b ∈ parse_markdown_to_notion_blocks content,
      Block.isQuote b = true → Block.text b ≠ []) ∧
    ((∀ line ∈ pysplit '\n' content, pystrip line = []) →
      parse_markdown_to_notion_blocks content = []) := by
  refine ⟨?_, ?_, ?_⟩
  · intro b hb
    exact (parse_lines_go_invariants _ _ b hb).1
  · intro b hb
    exact (parse_lines_go_invariants _ _ b hb).2
  · intro h
    exact parse_lines_go_all_blank _ _ h

/-- Witness for C10: an input of one space-only line and one empty line
converts to no blocks. -/
theorem parse_markdown_blocks_invariants_witness :
    parse_markdown_to_notion_blocks (" \n\t".data) = [] :=
  (parse_markdown_blocks_invariants (" \n\t".data)).2.2 (by decide)

/-! ### Claim C4: long-paragraph splitting -/

theorem pysplit_no_sep {sep : Char} : ∀ {l : List Char}, sep ∉ l → pysplit sep l = [l] := by
  intro l
  induction l with
  | nil => intro _; rfl
  | cons c cs ih =>
    intro h
    have hc : c ≠ sep := fun he => h (by simp [he])
    simp only [pysplit, if_neg hc]
    rw [ih (fun hm => h (by simp [hm]))]

theorem pychunks_go_nil (fuel : Nat) : pychunks_go fuel [] = [] := by
  cases fuel <;> rfl

theorem pychunks_go_step (fuel : Nat) {l : List Char} (h : l ≠ []) :
    pychunks_go (fuel + 1) l =
      l.take NOTION_MAX_CHUNK_SIZE :: pychunks_go fuel (l.drop NOTION_MAX_CHUNK_SIZE) := by
  cases l with
  | nil => exact absurd rfl h
  | cons c cs => rfl

/-- A text of exactly `3 * NOTION_MAX_CHUNK_SIZE` characters slices
into its three consecutive 2000-character windows. -/
theorem pychunks_length_6000 {l : List Char} (h : l.length = 6000) :
    pychunks l = [l.take 2000, (l.drop 2000).take 2000, l.drop 4000] := by
  have h1 : l ≠ [] := by intro he; subst he; simp at h
  have h2 : l.drop 2000 ≠ [] := by
    intro he; have := List.drop_eq_nil_iff.mp he; omega
  have h4 : l.drop 4000 ≠ [] := by
    intro he; have := List.drop_eq_nil_iff.mp he; omega
  have e1 : (l.drop 2000).drop 2000 = l.drop 4000 := by
    rw [List.drop_drop]
  have e2 : (l.drop 4000).drop 2000 = l.drop 6000 := by
    rw [List.drop_drop]
  have e3 : l.drop 6000 = [] := List.drop_eq_nil_of_le (by omega)
  have e4 : (l.drop 4000).take 2000 = l.drop 4000 :=
    List.take_of_length_le (l := l.drop 4000) (i := 2000)
      (by rw [List.length_drop]; omega)
  unfold pychunks
  rw [h, show (6000 : Nat) = 5999 + 1 from rfl, pychunks_go_step _ h1]
  simp only [NOTION_MAX_CHUNK_SIZE]
  rw [show (5999 : Nat) = 5998 + 1 from rfl, pychunks_go_step _ h2]
  simp only [NOTION_MAX_CHUNK_SIZE]
  rw [e1, show (5998 : Nat) = 5997 + 1 from rfl, pychunks_go_step _ h4]
  simp only [NOTION_MAX_CHUNK_SIZE]
  rw [e2, e3, e4, pychunks_go_nil]

/-- A single long non-special line parses as the mapped chunk
paragraphs. -/
theorem parse_markdown_single_long_paragraph {p : List Char}
    (hnl : '\n' ∉ p) (hstrip : pystrip p = p) (hne : p ≠ [])
    (hH : p.head? ≠ some '#')
    (hB : isBulletLine p = false)
    (hN : isNumberedLine p = false)
    (hC : startsWithL "```".data p = false)
    (hQ : p.head? ≠ some '>')
    (hlen : NOTION_MAX_CHUNK_SIZE < p.length) :
    parse_markdown_to_notion_blocks p =
      (pychunks p).map (fun ch => Block.paragraph (parse_rich_text ch)) := by
  unfold parse_markdown_to_notion_blocks parse_lines
  rw [pysplit_no_sep hnl]
  show parse_lines_go (0 + 1) [p] = _
  simp only [parse_lines_go, hstrip]
  rw [if_neg hne, if_neg hH, if_neg (by simp [hB]), if_neg (by simp [hN]),
    if_neg (by simp [hC]), if_neg hQ]
  simp only [List.takeWhile_nil, List.dropWhile_nil, List.map_nil]
  have hpt : List.intercalate [' '] [p] = p := by
    simp [List.intercalate, List.intersperse]
  rw [hpt]
  rw [if_pos (by omega)]
  simp [parse_lines_go]

/-- **C4, amended.** For a paragraph given as one plain line of exactly
`3 * NOTION_MAX_CHUNK_SIZE` characters — no newline and no `*`/`_`
formatting delimiters anywhere, strip-invariant, and not starting like
a heading, list item, code fence or quote — the converter emits exactly
three paragraph blocks, in order, each carrying at most
`NOTION_MAX_CHUNK_SIZE` characters, whose concatenated text is the
original paragraph.  (With formatting delimiters present the
concatenation clause fails; see the counterexample.) -/
theorem paragraph_3N_splits (p : List Char)
    (hlen : p.length = 3 * NOTION_MAX_CHUNK_SIZE)
    (hchars : ∀ c ∈ p, c ≠ '*' ∧ c ≠ '_' ∧ c ≠ '\n')
    (hstrip : pystrip p = p)
    (hH : p.head? ≠ some '#') (hB : isBulletLine p = false)
    (hN : isNumberedLine p = false) (hC : startsWithL "```".data p = false)
    (hQ : p.head? ≠ some '>') :
    parse_markdown_to_notion_blocks p =
      [Block.paragraph [⟨p.take 2000, false, false⟩],
       Block.paragraph [⟨(p.drop 2000).take 2000, false, false⟩],
       Block.paragraph [⟨p.drop 4000, false, false⟩]] ∧
    (parse_markdown_to_notion_blocks p).length = 3 ∧
    (∀ b ∈ parse_markdown_to_notion_blocks p,
      (∃ r, b = Block.paragraph r) ∧ (Block.text b).length ≤ NOTION_MAX_CHUNK_SIZE) ∧
    ((parse_markdown_to_notion_blocks p).map Block.text).flatten = p := by
  have hlen6 : p.length = 6000 := by
    simpa [NOTION_MAX_CHUNK_SIZE] using hlen
  have hne : p ≠ [] := by intro he; subst he; simp at hlen6
  have hnl : '\n' ∉ p := fun hm => (hchars '\n' hm).2.2 rfl
  have hmain : parse_markdown_to_notion_blocks p =
      [Block.paragraph [⟨p.take 2000, false, false⟩],
       Block.paragraph [⟨(p.drop 2000).take 2000, false, false⟩],
       Block.paragraph [⟨p.drop 4000, false, false⟩]] := by
    have hgt : NOTION_MAX_CHUNK_SIZE < p.length := by
      simp only [NOTION_MAX_CHUNK_SIZE]
      omega
    rw [parse_markdown_single_long_paragraph hnl hstrip hne hH hB hN hC hQ hgt]
    rw [pychunks_length_6000 hlen6]
    have hm : ∀ q : List Char, q ⊆ p → ∀ c ∈ q, c ≠ '*' ∧ c ≠ '_' :=
      fun q hq c hc => ⟨(hchars c (hq hc)).1, (hchars c (hq hc)).2.1⟩
    have hc1 : p.take 2000 ≠ [] := by
      intro he
      have h0 := congrArg List.length he
      rw [List.length_take] at h0
      simp only [List.length_nil] at h0
      omega
    have hc2 : (p.drop 2000).take 2000 ≠ [] := by
      intro he
      have h0 := congrArg List.length he
      rw [List.length_take, List.length_drop] at h0
      simp only [List.length_nil] at h0
      omega
    have hc3 : p.drop 4000 ≠ [] := by
      intro he
      have h0 := congrArg List.length he
      rw [List.length_drop] at h0
      simp only [List.length_nil] at h0
      omega
    simp only [List.map_cons, List.map_nil]
    rw [parse_rich_text_plain hc1 (hm _ (List.take_subset _ _)),
      parse_rich_text_plain hc2 (hm _ (fun c hc =>
        List.drop_subset _ _ (List.take_subset _ _ hc))),
      parse_rich_text_plain hc3 (hm _ (List.drop_subset _ _))]
  refine ⟨hmain, by rw [hmain]; rfl, ?_, ?_⟩
  · intro b hb
    rw [hmain] at hb
    have htake1 : (p.take 2000).length ≤ 2000 := by
      simp [List.length_take]
    have htake2 : ((p.drop 2000).take 2000).length ≤ 2000 := by
      simp [List.length_take]
    have hdrop3 : (p.drop 4000).length ≤ 2000 := by
      rw [List.length_drop]; omega
    simp only [List.mem_cons, List.not_mem_nil, or_false] at hb
    rcases hb with rfl | rfl | rfl
    · exact ⟨⟨_, rfl⟩, by
        simp only [Block.text, Block.rich, List.map_cons, List.map_nil,
          List.flatten_cons, List.flatten_nil, List.append_nil, NOTION_MAX_CHUNK_SIZE]
        exact htake1⟩
    · exact ⟨⟨_, rfl⟩, by
        simp only [Block.text, Block.rich, List.map_cons, List.map_nil,
          List.flatten_cons, List.flatten_nil, List.append_nil, NOTION_MAX_CHUNK_SIZE]
        exact htake2⟩
    · exact ⟨⟨_, rfl⟩, by simpa [Block.text, Block.rich, NOTION_MAX_CHUNK_SIZE]
        using hdrop3⟩
  · rw [hmain]
    simp only [List.map_cons, List.map_nil, Block.text, Block.rich, List.map,
      List.flatten]
    have e1 : (p.drop 2000).take 2000 ++ ((p.drop 2000).drop 2000) = p.drop 2000 :=
      List.take_append_drop _ _
    have e2 : (p.drop 2000).drop 2000 = p.drop 4000 := by rw [List.drop_drop]
    simp only [List.append_nil]
    calc p.take 2000 ++ ((p.drop 2000).take 2000 ++ p.drop 4000)
        = p.take 2000 ++ p.drop 2000 := by rw [← e2, e1]
      _ = p := List.take_append_drop _ _

/-- Witness for the amended C4 at the 6000-character paragraph
`aaa…a`. -/
theorem paragraph_3N_splits_witness :
    ((parse_markdown_to_notion_blocks (List.replicate 6000 'a')).map
      Block.text).flatten = List.replicate 6000 'a' := by
  have hrep : List.replicate 6000 'a' = 'a' :: List.replicate 5999 'a' := by
    rw [show (6000 : Nat) = 5999 + 1 from rfl, List.replicate_succ]
  have hhead : (List.replicate 6000 'a').head? = some 'a' := by
    rw [List.head?_replicate]
    norm_num
  have hlast : (List.replicate 6000 'a').getLast? = some 'a' := by
    rw [List.getLast?_replicate]
    norm_num
  clear hrep
  refine (paragraph_3N_splits (List.replicate 6000 'a') ?_ ?_ ?_ ?_ ?_ ?_ ?_ ?_).2.2.2
  · simp only [List.length_replicate, NOTION_MAX_CHUNK_SIZE]
  · intro c hc
    rw [List.eq_of_mem_replicate hc]
    refine ⟨by decide, by decide, by decide⟩
  · refine pystrip_eq_self ?_ ?_
    · intro c hc
      rw [hhead] at hc
      rw [← Option.some.inj hc]
      decide
    · intro c hc
      rw [hlast] at hc
      rw [← Option.some.inj hc]
      decide
  · rw [hhead]; decide
  · decide
  · decide
  · decide
  · rw [hhead]; decide

theorem charBeq_false {a b : Char} (h : a ≠ b) : (a == b) = false :=
  beq_eq_false_iff_ne.mpr h

theorem reSplit_go_gap_step {d0 e0 c : Char} {dr er gap cs : List Char} {fuel : Nat}
    (h1 : matchDelim d0 dr (c :: cs) = none) (h2 : matchDelim e0 er (c :: cs) = none) :
    reSplit_go d0 dr e0 er (fuel + 1) gap (c :: cs) =
      reSplit_go d0 dr e0 er fuel (c :: gap) cs := by
  simp [reSplit_go, h1, h2]

theorem reSplit_go_match_step {d0 e0 : Char} {dr er gap l m rest : List Char} {fuel : Nat}
    (h : matchDelim d0 dr l = some (m, rest)) :
    reSplit_go d0 dr e0 er (fuel + 1) gap l =
      gap.reverse :: m :: reSplit_go d0 dr e0 er fuel [] rest := by
  simp [reSplit_go, h]

/-- The rich-text parse of `*a*` followed by plain text: the italic
pass captures the span, strips the asterisks, and emits the remainder
as a plain run — so the source markers are lost from the content. -/
theorem parse_rich_text_star_a_star {bs : List Char} (hne : bs ≠ [])
    (h : ∀ c ∈ bs, c ≠ '*' ∧ c ≠ '_') :
    parse_rich_text ('*' :: 'a' :: '*' :: bs) =
      [⟨['a'], false, true⟩, ⟨bs, false, false⟩] := by
  obtain ⟨b0, bs', rfl⟩ : ∃ b0 bs', bs = b0 :: bs' := by
    cases bs with
    | nil => exact absurd rfl hne
    | cons b0 bs' => exact ⟨b0, bs', rfl⟩
  have hb0 := h b0 (by simp)
  have m1 : matchDelim '*' ['*'] ('*' :: 'a' :: '*' :: b0 :: bs') = none :=
    matchDelim_not_prefix (by
      simp [List.isPrefixOf, charBeq_false (show ('*' : Char) ≠ 'a' from by decide)])
  have m2 : matchDelim '_' ['_'] ('*' :: 'a' :: '*' :: b0 :: bs') = none :=
    matchDelim_not_prefix (isPrefixOf_cons_ne _ _ (by decide))
  have m3 : matchDelim '*' ['*'] ('a' :: '*' :: b0 :: bs') = none :=
    matchDelim_not_prefix (isPrefixOf_cons_ne _ _ (by decide))
  have m4 : matchDelim '_' ['_'] ('a' :: '*' :: b0 :: bs') = none :=
    matchDelim_not_prefix (isPrefixOf_cons_ne _ _ (by decide))
  have m5 : matchDelim '*' ['*'] ('*' :: b0 :: bs') = none :=
    matchDelim_not_prefix (by
      simp [List.isPrefixOf, charBeq_false (fun he => hb0.1 he.symm)])
  have m6 : matchDelim '_' ['_'] ('*' :: b0 :: bs') = none :=
    matchDelim_not_prefix (isPrefixOf_cons_ne _ _ (by decide))
  have hbold : reSplit '*' ['*'] '_' ['_'] [] ('*' :: 'a' :: '*' :: b0 :: bs') =
      [('*' :: 'a' :: '*' :: b0 :: bs')] := by
    show reSplit_go '*' ['*'] '_' ['_'] ((bs'.length + 3) + 1) []
      ('*' :: 'a' :: '*' :: b0 :: bs') = _
    rw [reSplit_go_gap_step m1 m2]
    show reSplit_go '*' ['*'] '_' ['_'] ((bs'.length + 2) + 1) ['*']
      ('a' :: '*' :: b0 :: bs') = _
    rw [reSplit_go_gap_step m3 m4]
    show reSplit_go '*' ['*'] '_' ['_'] ((bs'.length + 1) + 1) ['a', '*']
      ('*' :: b0 :: bs') = _
    rw [reSplit_go_gap_step m5 m6]
    rw [reSplit_go_no_delims (bs'.length + 1) ['*', 'a', '*'] (b0 :: bs')
      (by simp) h]
    rfl
  have him : matchDelim '*' [] ('*' :: 'a' :: '*' :: b0 :: bs') =
      some (['*', 'a', '*'], b0 :: bs') := by
    simp [matchDelim, List.isPrefixOf, findCloseRE,
      charBeq_false (show ('*' : Char) ≠ 'a' from by decide),
      show ('a' : Char) ≠ '\n' from by decide]
  have hital : reSplit '*' [] '_' [] [] ('*' :: 'a' :: '*' :: b0 :: bs') =
      [[], ['*', 'a', '*'], b0 :: bs'] := by
    show reSplit_go '*' [] '_' [] ((bs'.length + 3) + 1) []
      ('*' :: 'a' :: '*' :: b0 :: bs') = _
    rw [reSplit_go_match_step him]
    rw [reSplit_go_no_delims (bs'.length + 3) [] (b0 :: bs')
      (by simp only [List.length_cons]; omega) h]
    rfl
  have hclass : classify_bold_part ('*' :: 'a' :: '*' :: b0 :: bs') =
      [⟨['a'], false, true⟩, ⟨b0 :: bs', false, false⟩] := by
    unfold classify_bold_part
    rw [if_neg (by simp)]
    rw [if_neg (by
      simp [startsWithL, List.isPrefixOf,
        charBeq_false (show ('*' : Char) ≠ 'a' from by decide)])]
    rw [if_neg (by
      simp [startsWithL, isPrefixOf_cons_ne _ _ (show ('_' : Char) ≠ '*' from by decide)])]
    rw [hital]
    simp only [List.map_cons, List.map_nil, List.flatten_cons, List.flatten_nil]
    rw [classify_italic_part_plain (by simp) h]
    rw [show classify_italic_part [] = [] from rfl,
      show classify_italic_part ['*', 'a', '*'] = [⟨['a'], false, true⟩] from by decide]
    rfl
  unfold parse_rich_text
  rw [if_neg (by simp)]
  simp only [hbold, List.map_cons, List.map_nil, List.flatten_cons, List.flatten_nil,
    hclass]
  rw [if_neg (by simp)]
  rfl

/-- The paragraph that refutes C4 as stated: an italic span `*a*`
followed by 5997 `b`s — one line of exactly `3 * NOTION_MAX_CHUNK_SIZE`
characters. -/
def cexPara : List Char := '*' :: 'a' :: '*' :: List.replicate 5997 'b'

theorem cexPara_blocks :
    parse_markdown_to_notion_blocks cexPara =
      [Block.paragraph [⟨['a'], false, true⟩,
        ⟨List.replicate 1997 'b', false, false⟩],
       Block.paragraph [⟨List.replicate 2000 'b', false, false⟩],
       Block.paragraph [⟨List.replicate 2000 'b', false, false⟩]] := by
  have hrep : ∀ c ∈ List.replicate 5997 'b', c = 'b' :=
    fun c hc => List.eq_of_mem_replicate hc
  have hnl : '\n' ∉ cexPara := by
    intro hm
    simp only [cexPara, List.mem_cons] at hm
    rcases hm with h | h | h | h
    · exact absurd h (by decide)
    · exact absurd h (by decide)
    · exact absurd h (by decide)
    · exact absurd (hrep _ h) (by decide)
  have hlast : cexPara.getLast? = some 'b' := by
    show ('*' :: 'a' :: '*' :: List.replicate 5997 'b').getLast? = some 'b'
    rw [List.getLast?_cons_cons, List.getLast?_cons_cons,
      show (5997 : Nat) = 5996 + 1 from rfl, List.replicate_succ,
      List.getLast?_cons_cons, ← List.replicate_succ, List.getLast?_replicate]
    norm_num
  have hstrip : pystrip cexPara = cexPara := by
    refine pystrip_eq_self ?_ ?_
    · intro c hc
      have h0 : cexPara.head? = some '*' := rfl
      rw [h0] at hc
      rw [← Option.some.inj hc]
      decide
    · intro c hc
      rw [hlast] at hc
      rw [← Option.some.inj hc]
      decide
  have hlen6 : cexPara.length = 6000 := by
    simp only [cexPara, List.length_cons, List.length_replicate]
  have hmain := parse_markdown_single_long_paragraph (p := cexPara) hnl hstrip
    (by decide) (by decide) (by decide) (by decide) (by decide) (by decide)
    (by simp only [NOTION_MAX_CHUNK_SIZE]; omega)
  rw [hmain, pychunks_length_6000 hlen6]
  have hA : cexPara = ['*', 'a', '*'] ++ List.replicate 5997 'b' := rfl
  have hc1 : cexPara.take 2000 = '*' :: 'a' :: '*' :: List.replicate 1997 'b' := by
    rw [hA, List.take_append_eq_append_take, List.take_replicate]
    norm_num
  have hc2 : (cexPara.drop 2000).take 2000 = List.replicate 2000 'b' := by
    rw [hA, List.drop_append_eq_append_drop, List.drop_replicate]
    norm_num
  have hc3 : cexPara.drop 4000 = List.replicate 2000 'b' := by
    rw [hA, List.drop_append_eq_append_drop, List.drop_replicate]
    norm_num
  rw [hc1, hc2, hc3]
  have hbne : List.replicate 1997 'b' ≠ [] := by
    intro he
    have h0 := congrArg List.length he
    rw [List.length_replicate, List.length_nil] at h0
    exact absurd h0 (by decide)
  have hb2000 : List.replicate 2000 'b' ≠ [] := by
    intro he
    have h0 := congrArg List.length he
    rw [List.length_replicate, List.length_nil] at h0
    exact absurd h0 (by decide)
  have hmem1997 : ∀ c ∈ List.replicate 1997 'b', c ≠ '*' ∧ c ≠ '_' := by
    intro c hc
    rw [List.eq_of_mem_replicate hc]
    exact ⟨by decide, by decide⟩
  have hmem2000 : ∀ c ∈ List.replicate 2000 'b', c ≠ '*' ∧ c ≠ '_' := by
    intro c hc
    rw [List.eq_of_mem_replicate hc]
    exact ⟨by decide, by decide⟩
  simp only [List.map_cons, List.map_nil]
  rw [parse_rich_text_star_a_star hbne hmem1997,
    parse_rich_text_plain hb2000 hmem2000]

/-- **C4, counterexample.** At the 6000-character paragraph
`*a*bbb…b` the converter does emit three paragraph blocks of at most
2000 characters each, but their concatenated text is `a` followed by
5997 `b`s (5998 characters): the `*` delimiters are consumed as italic
markup, so the blocks do not concatenate back to the original
paragraph. -/
theorem paragraph_3N_not_concat :
    ¬ ((parse_markdown_to_notion_blocks cexPara).length = 3 ∧
       (∀ b ∈ parse_markdown_to_notion_blocks cexPara,
         (∃ r, b = Block.paragraph r) ∧
           (Block.text b).length ≤ NOTION_MAX_CHUNK_SIZE) ∧
       ((parse_markdown_to_notion_blocks cexPara).map Block.text).flatten =
         cexPara) := by
  rintro ⟨-, -, h3⟩
  have hlen := congrArg List.length h3
  rw [cexPara_blocks] at hlen
  simp only [List.map_cons, List.map_nil, Block.text, Block.rich, List.flatten_cons,
    List.flatten_nil, List.length_append, List.length_cons, List.length_replicate,
    List.length_nil, cexPara] at hlen
  omega

/-! ### SummarizationOrchestrator cleanup (`summarization.clean_ai_response`)

The six preamble regexes are embedded as regex syntax trees over the
constructs they use, with a backtracking matcher whose result list is
ordered by the engine's preference (so `.head?` is the match the Python
engine finds).  All literal comparisons are case-insensitive
(`re.IGNORECASE`), `.` does not match a newline, and `$` behaves as
under `re.MULTILINE`. -/

inductive RE where
  | eps
  | chr (c : Char)
  | ws
  | cat (a b : RE)
  | alt (a b : RE)
  | opt (a : RE)
  | wsStar
  | lazyDots
  | dollar

/-- Greedy `\s*`: the suffixes after consuming a run of whitespace,
longest first. -/
def wsRun : List Char → List (List Char)
  | [] => [[]]
  | c :: cs => if isWS c then wsRun cs ++ [c :: cs] else [c :: cs]

/-- Lazy `.*?`: the suffixes after consuming non-newline characters,
shortest first. -/
def dotRun : List Char → List (List Char)
  | [] => [[]]
  | c :: cs => if c = '\n' then [c :: cs] else (c :: cs) :: dotRun cs

/-- The matcher: all suffixes remaining after a match of `r` at the
head of the input, in backtracking-priority order. -/
def REmatch : RE → List Char → List (List Char)
  | .eps, l => [l]
  | .chr c, l =>
    match l with
    | [] => []
    | x :: xs => if x.toLower = c.toLower then [xs] else []
  | .ws, l =>
    match l with
    | [] => []
    | x :: xs => if isWS x then [xs] else []
  | .cat a b, l => ((REmatch a l).map (REmatch b)).flatten
  | .alt a b, l => REmatch a l ++ REmatch b l
  | .opt a, l => REmatch a l ++ [l]
  | .wsStar, l => wsRun l
  | .lazyDots, l => dotRun l
  | .dollar, l => if l = [] ∨ l.head? = some '\n' then [l] else []

/-- A literal string as a regex. -/
def lit (s : List Char) : RE := s.foldr (fun c r => .cat (.chr c) r) .eps

/-- `[.,]?` -/
def optPunct : RE := .opt (.alt (.chr '.') (.chr ','))

/-- `(?:\n|$)` -/
def lineEnd : RE := .alt (.chr '\n') .dollar

/-- The apostrophe character (in `Here's`, `I'll`). -/
def apos : Char := Char.ofNat 39

/-- `minutes?` -/
def minutesRE : RE := .cat (lit "minute".data) (.opt (.chr 's'))

/-- The six `preamble_patterns` of `clean_ai_response`, in order. -/
def preamble_patterns : List RE :=
  [ -- ^(?:Of course[.,]?\s*)?Here (?:are|is) the meeting minutes?.*?(?:\n|$)
    .cat (.opt (.cat (lit "Of course".data) (.cat optPunct .wsStar)))
      (.cat (lit "Here ".data)
        (.cat (.alt (lit "are".data) (lit "is".data))
          (.cat (lit " the meeting minute".data)
            (.cat (.opt (.chr 's')) (.cat .lazyDots lineEnd))))),
    -- ^Based on the (?:provided )?transcript.*?(?:\n|$)
    .cat (lit "Based on the ".data)
      (.cat (.opt (lit "provided ".data))
        (.cat (lit "transcript".data) (.cat .lazyDots lineEnd))),
    -- ^I'll (?:create|provide|generate).*?meeting minutes?.*?(?:\n|$)
    .cat (lit ("I".data ++ [apos] ++ "ll ".data))
      (.cat (.alt (lit "create".data) (.alt (lit "provide".data) (lit "generate".data)))
        (.cat .lazyDots
          (.cat (lit "meeting minute".data)
            (.cat (.opt (.chr 's')) (.cat .lazyDots lineEnd))))),
    -- ^(?:Certainly[.,]?\s*)?(?:Here's|Here are).*?(?:summary|minutes?).*?(?:\n|$)
    .cat (.opt (.cat (lit "Certainly".data) (.cat optPunct .wsStar)))
      (.cat (.alt (lit ("Here".data ++ [apos] ++ "s".data)) (lit "Here are".data))
        (.cat .lazyDots
          (.cat (.alt (lit "summary".data) minutesRE)
            (.cat .lazyDots lineEnd)))),
    -- ^(?:Sure[.,]?\s*)?(?:I'll|Let me).*?(?:summarize|create).*?(?:\n|$)
    .cat (.opt (.cat (lit "Sure".data) (.cat optPunct .wsStar)))
      (.cat (.alt (lit ("I".data ++ [apos] ++ "ll".data)) (lit "Let me".data))
        (.cat .lazyDots
          (.cat (.alt (lit "summarize".data) (lit "create".data))
            (.cat .lazyDots lineEnd)))),
    -- ^(?:Absolutely[.,]?\s*)?(?:Here's|Here are) (?:a |the )?(?:clean |structured )?
    --   (?:meeting )?(?:summary|minutes?).*?(?:\n|$)
    .cat (.opt (.cat (lit "Absolutely".data) (.cat optPunct .wsStar)))
      (.cat (.alt (lit ("Here".data ++ [apos] ++ "s".data)) (lit "Here are".data))
        (.cat (.chr ' ')
          (.cat (.opt (.alt (lit "a ".data) (lit "the ".data)))
            (.cat (.opt (.alt (lit "clean ".data) (lit "structured ".data)))
              (.cat (.opt (lit "meeting ".data))
                (.cat (.alt (lit "summary".data) minutesRE)
                  (.cat .lazyDots lineEnd))))))) ]

/-- `re.sub(pattern, "", text)` for one `^`-anchored pattern under
`re.MULTILINE`: the pattern is tried at the start of every line; a
match is removed and scanning resumes after it (every match of these
patterns ends after a newline or at the end of the text).  The fuel —
at least the text length — makes the recursion structural; a (here
unreachable) zero-width match keeps the character and advances. -/
def reSubA_go (p : RE) : Nat → Bool → List Char → List Char
  | 0, _, l => l
  | fuel + 1, atStart, l =>
    match l with
    | [] => []
    | c :: cs =>
      if atStart then
        match (REmatch p (c :: cs)).head? with
        | some rest =>
          if rest.length = (c :: cs).length then
            c :: reSubA_go p fuel (c = '\n') cs
          else reSubA_go p fuel true rest
        | none => c :: reSubA_go p fuel (c = '\n') cs
      else c :: reSubA_go p fuel (c = '\n') cs

/-- One `re.sub` pass over the whole text (the start of the text is a
line start). -/
def re_sub_pattern (p : RE) (text : List Char) : List Char :=
  reSubA_go p text.length true text

/-- `summarization.clean_ai_response`: strip, remove every line-start
match of each preamble pattern in order, strip again. -/
def clean_ai_response (response_text : List Char) : List Char :=
  if response_text = [] then response_text
  else
    pystrip (preamble_patterns.foldl (fun t p => re_sub_pattern p t)
      (pystrip response_text))

/-! ### Claim C8 -/

/-- **C8 (code bug).** Because the patterns are applied with
`re.MULTILINE`, `^` matches at *every* line start, not only at the
start of the response: a mid-response content line that happens to
begin with a preamble phrase ("Based on the transcript, …") is deleted
even though it occurs after the start of the response.  The claim (and
the spec's "from the start of the response only") describes the
evident intent — removing chatty preamble — but the flag makes the
cleanup destroy matching lines anywhere in the document. -/
theorem clean_ai_response_removes_midtext_line :
    clean_ai_response
      ("Action items\nBased on the transcript, review the budget\nDone".data) =
      "Action items\nDone".data ∧
    ("Based on the transcript, review the budget".data ∈
      pysplit '\n'
        ("Action items\nBased on the transcript, review the budget\nDone".data)) ∧
    ("Based on the transcript, review the budget".data ∉
      pysplit '\n'
        (clean_ai_response
          ("Action items\nBased on the transcript, review the budget\nDone".data))) := by
  refine ⟨by decide, by decide, by decide⟩

end Whisper
